import Mathlib

/-!
Verification of the voice-inventory core of `src/src/App.js`.

The file shallowly embeds the two core functions of the repository,
`processVoiceCommand` (command interpreter) and `updateInventory`
(inventory reconciler), in both their local-state variant (lines 66-127)
and their Supabase-backed variant (lines 391-470), and proves the
spec's claims about them.

Strings are modelled as `List Char`.  The four JavaScript regular
expressions are embedded as terms of a small regex AST (`RE`) together
with a backtracking matcher (`matchRE`) that implements JS semantics:
leftmost match, greedy `+`, lazy `+?`, greedy optional groups and
numbered capture groups.  Timestamps (`new Date()`) are modelled by an
explicit `now : Nat` argument, and the remote Supabase write by a
`storeOk : Bool` argument recording whether the store accepted the
update.
-/

/-- Characters matched by the JS regex class `\s` (also the set trimmed
by `String.prototype.trim`). -/
def isJsSpace (c : Char) : Bool :=
  c = ' ' || c = '\t' || c = '\n' || c = '\x0b' || c = '\x0c' || c = '\r' ||
  c = ' ' || c = ' ' || (' ' ≤ c && c ≤ ' ') ||
  c = ' ' || c = ' ' || c = ' ' || c = ' ' ||
  c = '　' || c = '﻿'

/-- `command.toLowerCase()`.  `Char.toLower` is the ASCII case mapping,
which agrees with JavaScript on the ASCII transcripts and item names the
application handles. -/
def jsToLower (s : List Char) : List Char := s.map Char.toLower

/-- Characters of a Lean string literal, as the `List Char` string model. -/
def str (s : String) : List Char := s.data

/-- Boolean prefix test on character lists. -/
def isPrefixL : List Char → List Char → Bool
  | [], _ => true
  | _ :: _, [] => false
  | a :: as, b :: bs => a = b && isPrefixL as bs

/-- `hay.includes(needle)` from JavaScript: substring containment. -/
def strIncludes (hay needle : List Char) : Bool :=
  match hay with
  | [] => needle.isEmpty
  | _ :: rest => isPrefixL needle hay || strIncludes rest needle

/-- Mathematical substring containment: `needle` occurs contiguously in
`hay`. -/
def SubstrOf (needle hay : List Char) : Prop :=
  ∃ pre post, hay = pre ++ needle ++ post

/-- `fragment.trim()` from JavaScript. -/
def trimJS (s : List Char) : List Char :=
  ((s.dropWhile isJsSpace).reverse.dropWhile isJsSpace).reverse

/-- `Array.prototype.join(sep)` on a list of strings. -/
def joinSep (sep : List Char) : List (List Char) → List Char
  | [] => []
  | [x] => x
  | x :: xs => x ++ sep ++ joinSep sep xs

/-- `parseInt(digits)` on the all-digit string captured by `(\d+)`:
base-10 value. -/
def parseIntDigits (ds : List Char) : Nat :=
  ds.foldl (fun acc c => 10 * acc + (c.toNat - 48)) 0

/-- Single-character regex classes appearing in the four patterns. -/
inductive CC where
  | digit
  | space
  | any
  | lit (c : Char)
  deriving DecidableEq

/-- Which characters a class matches; `any` is the JS `.` (everything
but line terminators). -/
def CC.matches : CC → Char → Bool
  | .digit, c => c.isDigit
  | .space, c => isJsSpace c
  | .any, c => !(c = '\n' || c = '\r' || c = ' ' || c = ' ')
  | .lit a, c => c = a

/-- Regex AST: exactly the constructs used by the four patterns of
`processVoiceCommand`. -/
inductive RE where
  | eps
  | cls (cc : CC)
  | plusG (cc : CC)
  | plusL (cc : CC)
  | seq (a b : RE)
  | optG (a : RE)
  | grp (n : Nat) (a : RE)
  deriving DecidableEq

/-- Numbered capture groups recorded during a match, newest first. -/
abbrev Caps := List (Nat × List Char)

/-- Greedy Kleene star over a character class, in continuation-passing
style: longest extensions are tried first, as a backtracking JS engine
does. -/
def reStarG (cc : CC) : List Char → Caps → (List Char → Caps → Option Caps) → Option Caps
  | [], caps, k => k [] caps
  | c :: rest, caps, k =>
    if cc.matches c then
      match reStarG cc rest caps k with
      | some r => some r
      | none => k (c :: rest) caps
    else k (c :: rest) caps

/-- Lazy Kleene star over a character class: the shortest extension is
tried first. -/
def reStarL (cc : CC) : List Char → Caps → (List Char → Caps → Option Caps) → Option Caps
  | [], caps, k => k [] caps
  | c :: rest, caps, k =>
    match k (c :: rest) caps with
    | some r => some r
    | none => if cc.matches c then reStarL cc rest caps k else none

/-- Backtracking matcher for a regex at the start of the input, in
continuation-passing style.  A capture group records the slice of input
it consumed. -/
def matchRE : RE → List Char → Caps → (List Char → Caps → Option Caps) → Option Caps
  | .eps, s, caps, k => k s caps
  | .cls cc, s, caps, k =>
    match s with
    | [] => none
    | c :: rest => if cc.matches c then k rest caps else none
  | .plusG cc, s, caps, k =>
    match s with
    | [] => none
    | c :: rest => if cc.matches c then reStarG cc rest caps k else none
  | .plusL cc, s, caps, k =>
    match s with
    | [] => none
    | c :: rest => if cc.matches c then reStarL cc rest caps k else none
  | .seq a b, s, caps, k => matchRE a s caps (fun s1 caps1 => matchRE b s1 caps1 k)
  | .optG a, s, caps, k =>
    match matchRE a s caps k with
    | some r => some r
    | none => k s caps
  | .grp n a, s, caps, k =>
    matchRE a s caps (fun s1 caps1 => k s1 ((n, s.take (s.length - s1.length)) :: caps1))

/-- `string.match(re)` without the global flag: try each start position
from the left and return the captures of the first successful match. -/
def reFirstMatch (r : RE) : List Char → Option Caps
  | [] => matchRE r [] [] (fun _ caps => some caps)
  | c :: rest =>
    match matchRE r (c :: rest) [] (fun _ caps => some caps) with
    | some caps => some caps
    | none => reFirstMatch r rest

/-- Sequential composition of a list of regexes. -/
def reSeq (l : List RE) : RE := l.foldr RE.seq RE.eps

/-- A literal string as a regex. -/
def reLits (s : List Char) : RE := reSeq (s.map (fun c => RE.cls (CC.lit c)))

/-- `\s+`. -/
def wsp : RE := .plusG .space

/-- Pattern 1 of `processVoiceCommand`: `/(?:i\s+)?used\s+(\d+)\s+(.+)/i`. -/
def p1 : RE :=
  reSeq [.optG (reSeq [.cls (.lit 'i'), wsp]), reLits (str "used"), wsp,
    .grp 1 (.plusG .digit), wsp, .grp 2 (.plusG .any)]

/-- Pattern 2: `/remove\s+(\d+)\s+(.+)/i`. -/
def p2 : RE :=
  reSeq [reLits (str "remove"), wsp, .grp 1 (.plusG .digit), wsp, .grp 2 (.plusG .any)]

/-- Pattern 3: `/add\s+(\d+)\s+(.+?)(?:\s+to\s+inventory)?/i`. -/
def p3 : RE :=
  reSeq [reLits (str "add"), wsp, .grp 1 (.plusG .digit), wsp, .grp 2 (.plusL .any),
    .optG (reSeq [wsp, reLits (str "to"), wsp, reLits (str "inventory")])]

/-- Pattern 4: `/(\d+)\s+(.+?)\s+used/i`. -/
def p4 : RE :=
  reSeq [.grp 1 (.plusG .digit), wsp, .grp 2 (.plusL .any), wsp, reLits (str "used")]

/-- The ordered pattern list of `processVoiceCommand`. -/
def patterns : List RE := [p1, p2, p3, p4]

/-- `match[n]`: the capture of group `n` (groups are recorded newest
first; every group of the four patterns is bound exactly once per
match). -/
def capGet (caps : Caps) (n : Nat) : List Char :=
  match caps.find? (fun p => p.1 == n) with
  | some p => p.2
  | none => []

/-- The `for (const pattern of patterns)` loop: captures of the first
pattern that matches. -/
def tryPatterns : List RE → List Char → Option Caps
  | [], _ => none
  | p :: ps, s =>
    match reFirstMatch p s with
    | some caps => some caps
    | none => tryPatterns ps s

/-- Result of the command interpreter: a parsed intent or the
`Could not understand command` outcome. -/
inductive ParseResult where
  | intent (quantity : Nat) (itemName : List Char) (isAdding : Bool)
  | unmatched
  deriving DecidableEq

/-- Body of `processVoiceCommand` after `const lowerCommand =
command.toLowerCase()`: first matching pattern wins, `quantity =
parseInt(match[1])`, `itemName = match[2].trim()`, `isAdding =
/add/i.test(lowerCommand)`. -/
def parseLowerCommand (lowerCommand : List Char) : ParseResult :=
  match tryPatterns patterns lowerCommand with
  | some m =>
    .intent (parseIntDigits (capGet m 1)) (trimJS (capGet m 2))
      (strIncludes lowerCommand (str "add"))
  | none => .unmatched

/-- `processVoiceCommand` (App.js lines 66-94). -/
def processVoiceCommand (command : List Char) : ParseResult :=
  parseLowerCommand (jsToLower command)

/-- An inventory ledger entry (the object literals of App.js lines 6-12).
`lastUpdated` timestamps are modelled as abstract `Nat` clock values. -/
structure Item where
  id : Nat
  name : List Char
  quantity : Int
  unit : List Char
  lowStock : Int
  lastUpdated : Nat
  deriving DecidableEq

/-- Seed item `{id: 1, name: 'Syringes', quantity: 25, unit: 'pieces', lowStock: 10}`. -/
def syringesItem : Item := ⟨1, str "Syringes", 25, str "pieces", 10, 0⟩

/-- Seed item `{id: 2, name: 'Bandages', quantity: 15, unit: 'rolls', lowStock: 5}`. -/
def bandagesItem : Item := ⟨2, str "Bandages", 15, str "rolls", 5, 0⟩

/-- Seed item `{id: 3, name: 'Lidocaine', quantity: 8, unit: 'vials', lowStock: 3}`. -/
def lidocaineItem : Item := ⟨3, str "Lidocaine", 8, str "vials", 3, 0⟩

/-- Seed item `{id: 4, name: 'Gloves', quantity: 50, unit: 'pairs', lowStock: 20}`. -/
def glovesItem : Item := ⟨4, str "Gloves", 50, str "pairs", 20, 0⟩

/-- Seed item `{id: 5, name: 'Gauze', quantity: 12, unit: 'packs', lowStock: 5}`. -/
def gauzeItem : Item := ⟨5, str "Gauze", 12, str "packs", 5, 0⟩

/-- The seeded ledger of the local-state variant. -/
def initialInventory : List Item :=
  [syringesItem, bandagesItem, lidocaineItem, glovesItem, gauzeItem]

/-- The `inventory.find(...)` predicate of `updateInventory`:
`inv.name.toLowerCase().includes(itemName) ||
itemName.includes(inv.name.toLowerCase())`.  Only the item's name is
lowercased; the fragment is used as given. -/
def itemMatches (itemName : List Char) (inv : Item) : Bool :=
  strIncludes (jsToLower inv.name) itemName || strIncludes itemName (jsToLower inv.name)

/-- Outcome of one reconciler/interpreter invocation in the local-state
variant: the resulting in-memory ledger, the status string and (on
success) the id passed to `setUpdatedItemId`. -/
inductive UpdateResult where
  | success (inventory : List Item) (status : List Char) (updatedId : Nat)
  | notFound (inventory : List Item) (status : List Char)
  | unrecognized (inventory : List Item) (status : List Char)
  deriving DecidableEq

/-- The resulting in-memory ledger of an outcome. -/
def UpdateResult.resInventory : UpdateResult → List Item
  | .success inv _ _ => inv
  | .notFound inv _ => inv
  | .unrecognized inv _ => inv

/-- The status string of an outcome. -/
def UpdateResult.resStatus : UpdateResult → List Char
  | .success _ st _ => st
  | .notFound _ st => st
  | .unrecognized _ st => st

/-- Decimal rendering of an integer, as JS template-literal
interpolation produces for the integral quantities involved. -/
def intStr (i : Int) : List Char := (toString i).data

/-- Decimal rendering of a natural number. -/
def natStr (n : Nat) : List Char := (toString n).data

/-- `updateInventory` of the local-state variant (App.js lines 97-127).
`now` is the clock value `new Date()` takes at this call. -/
def updateInventory (inventory : List Item) (itemName : List Char) (quantity : Nat)
    (isAdding : Bool) (now : Nat) : UpdateResult :=
  match inventory.find? (fun inv => itemMatches itemName inv) with
  | some item =>
    let newInventory := inventory.map (fun inv =>
      if inv.id = item.id then
        { inv with
          quantity := if isAdding then inv.quantity + (quantity : Int)
                      else max 0 (inv.quantity - (quantity : Int)),
          lastUpdated := now }
      else inv)
    let action := if isAdding then str "Added" else str "Used"
    let newQuantity := if isAdding then item.quantity + (quantity : Int)
                       else max 0 (item.quantity - (quantity : Int))
    .success newInventory
      (str "✅ " ++ action ++ str " " ++ natStr quantity ++ str " " ++ item.name ++
        str ". Stock: " ++ intStr item.quantity ++ str " → " ++ intStr newQuantity)
      item.id
  | none =>
    .notFound inventory
      (str "❌ Item \"" ++ itemName ++ str "\" not found. Available items: " ++
        joinSep (str ", ") (inventory.map (fun i => i.name)))

/-- A full interpret-then-reconcile step of the local-state variant:
`processVoiceCommand` either feeds the parsed intent to
`updateInventory` or reports the unrecognized-command status without
touching the ledger. -/
def handleCommand (inventory : List Item) (command : List Char) (now : Nat) : UpdateResult :=
  match processVoiceCommand command with
  | .intent quantity itemName isAdding => updateInventory inventory itemName quantity isAdding now
  | .unmatched =>
    .unrecognized inventory
      (str "Could not understand command. Try: \"I used 5 syringes\" or \"Add 10 gloves\"")

/-- Outcome of `updateInventory` in the Supabase variant, which has a
third path: the remote write was rejected (the `catch` block). -/
inductive SBResult where
  | success (inventory : List Item) (status : List Char) (updatedId : Nat)
  | storeFailure (inventory : List Item) (status : List Char)
  | notFound (inventory : List Item) (status : List Char)
  deriving DecidableEq

/-- The resulting in-memory ledger of a Supabase-variant outcome. -/
def SBResult.resInventory : SBResult → List Item
  | .success inv _ _ => inv
  | .storeFailure inv _ => inv
  | .notFound inv _ => inv

/-- `updateInventory` of the Supabase variant (App.js lines 422-470).
`storeOk` records whether the remote `update` succeeded; `setInventory`
runs only in the success branch, after the write. -/
def updateInventorySB (inventory : List Item) (itemName : List Char) (quantity : Nat)
    (isAdding : Bool) (now : Nat) (storeOk : Bool) : SBResult :=
  match inventory.find? (fun inv => itemMatches itemName inv) with
  | some item =>
    let newQuantity := if isAdding then item.quantity + (quantity : Int)
                       else max 0 (item.quantity - (quantity : Int))
    if storeOk then
      let newInventory := inventory.map (fun inv =>
        if inv.id = item.id then { inv with quantity := newQuantity, lastUpdated := now }
        else inv)
      let action := if isAdding then str "Added" else str "Used"
      .success newInventory
        (str "✅ " ++ action ++ str " " ++ natStr quantity ++ str " " ++ item.name ++
          str ". Stock: " ++ intStr item.quantity ++ str " → " ++ intStr newQuantity)
        item.id
    else
      .storeFailure inventory
        (str "❌ Failed to update " ++ item.name ++ str ". Please try again.")
  | none =>
    .notFound inventory
      (str "❌ Item \"" ++ itemName ++ str "\" not found. Available items: " ++
        joinSep (str ", ") (inventory.map (fun i => i.name)))

/-- Some capture group numbered 1 has been recorded. -/
def entry1 (caps : Caps) : Prop := ∃ p ∈ caps, p.1 = 1

/-- Every capture recorded for group 1 is a nonempty string of decimal
digits. -/
def goodCaps (caps : Caps) : Prop :=
  ∀ p ∈ caps, p.1 = 1 → p.2 ≠ [] ∧ ∀ c ∈ p.2, c.isDigit = true

/-- Group 1 is bound on every successful path through the regex. -/
def hasGrp1 : RE → Bool
  | .seq a b => hasGrp1 a || hasGrp1 b
  | .grp n a => decide (n = 1) || hasGrp1 a
  | _ => false

/-- Every group numbered 1 in the regex has body `(\d+)`. -/
def grp1ok : RE → Bool
  | .seq a b => grp1ok a && grp1ok b
  | .optG a => grp1ok a
  | .grp n a => if n = 1 then decide (a = RE.plusG CC.digit) else grp1ok a
  | _ => true

example : processVoiceCommand (str "I used 5 syringes") = .intent 5 (str "syringes") false := by decide

example : processVoiceCommand (str "Add 10 gloves to inventory") = .intent 10 (str "g") true := by decide

example : processVoiceCommand (str "used 3 adductor pads") = .intent 3 (str "adductor pads") true := by decide

example : processVoiceCommand (str "xyz please help") = .unmatched := by decide

example :
    (handleCommand initialInventory (str "I used 5 syringes") 7).resInventory =
      [{ syringesItem with quantity := 20, lastUpdated := 7 }, bandagesItem, lidocaineItem,
        glovesItem, gauzeItem] := by decide

example :
    (handleCommand [glovesItem] (str "Add 10 gloves to inventory") 7).resInventory.map
      Item.quantity = [60] := by decide

example : itemMatches (str "lido") lidocaineItem = true := by decide

example : itemMatches (str "vials of lidocaine") lidocaineItem = true := by decide

example :
    updateInventory [bandagesItem] (str "bandaids") 3 false 7 =
      .notFound [bandagesItem]
        (str "❌ Item \"bandaids\" not found. Available items: Bandages") := by decide

theorem isPrefixL_iff (nd hay : List Char) :
    isPrefixL nd hay = true ↔ ∃ t, nd ++ t = hay := by
  induction nd generalizing hay with
  | nil => simp [isPrefixL]
  | cons a as ih =>
    cases hay with
    | nil => simp [isPrefixL]
    | cons b bs =>
      simp only [isPrefixL, Bool.and_eq_true, decide_eq_true_eq, ih, List.cons_append,
        List.cons.injEq]
      constructor
      · rintro ⟨rfl, t, rfl⟩
        exact ⟨t, rfl, rfl⟩
      · rintro ⟨t, rfl, rfl⟩
        exact ⟨rfl, t, rfl⟩

theorem strIncludes_iff (hay nd : List Char) :
    strIncludes hay nd = true ↔ SubstrOf nd hay := by
  induction hay with
  | nil =>
    simp only [strIncludes, List.isEmpty_iff, SubstrOf]
    constructor
    · rintro rfl
      exact ⟨[], [], rfl⟩
    · rintro ⟨pre, post, h⟩
      have hh : pre = [] ∧ nd = [] ∧ post = [] := by
        simpa [List.append_eq_nil] using h.symm
      exact hh.2.1
  | cons c rest ih =>
    simp only [strIncludes, Bool.or_eq_true, isPrefixL_iff, ih, SubstrOf]
    constructor
    · rintro (⟨t, ht⟩ | ⟨pre, post, hp⟩)
      · exact ⟨[], t, by simp [ht]⟩
      · exact ⟨c :: pre, post, by simp [hp]⟩
    · rintro ⟨pre, post, hp⟩
      cases pre with
      | nil =>
        left
        exact ⟨post, by simpa using hp.symm⟩
      | cons x xs =>
        right
        rw [List.cons_append, List.cons_append] at hp
        injection hp with _ h2
        exact ⟨xs, post, by simp [h2]⟩

theorem SubstrOf.within {nd hay : List Char} (a b : List Char) (h : SubstrOf nd hay) :
    SubstrOf nd (a ++ hay ++ b) := by
  obtain ⟨pre, post, rfl⟩ := h
  exact ⟨a ++ pre, post ++ b, by simp⟩

theorem SubstrOf.refl (s : List Char) : SubstrOf s s := ⟨[], [], by simp⟩

theorem joinSep_mem (sep : List Char) {x : List Char} :
    ∀ {xs : List (List Char)}, x ∈ xs → SubstrOf x (joinSep sep xs) := by
  intro xs
  induction xs with
  | nil => intro h; cases h
  | cons y ys ih =>
    intro hmem
    cases ys with
    | nil =>
      rcases List.mem_singleton.mp hmem with rfl
      exact SubstrOf.refl x
    | cons z zs =>
      rcases List.mem_cons.mp hmem with rfl | hx
      · exact ⟨[], sep ++ joinSep sep (z :: zs), by simp [joinSep]⟩
      · obtain ⟨pre, post, hp⟩ := ih hx
        exact ⟨y ++ sep ++ pre, post, by simp [joinSep, hp]⟩

theorem entry1_append {caps : Caps} (pre : Caps) (h : entry1 caps) :
    entry1 (pre ++ caps) := by
  obtain ⟨p, hp, h1⟩ := h
  exact ⟨p, List.mem_append_right pre hp, h1⟩

theorem reStarG_elim {cc : CC} :
    ∀ {s : List Char} {caps : Caps} {k : List Char → Caps → Option Caps} {res : Caps},
      reStarG cc s caps k = some res →
      ∃ ds s1, s = ds ++ s1 ∧ (∀ c ∈ ds, cc.matches c = true) ∧ k s1 caps = some res := by
  intro s
  induction s with
  | nil =>
    intro caps k res h
    exact ⟨[], [], rfl, by simp, h⟩
  | cons c rest ih =>
    intro caps k res h
    by_cases hm : cc.matches c
    · rw [reStarG, if_pos hm] at h
      cases heq : reStarG cc rest caps k with
      | some r =>
        rw [heq] at h
        obtain ⟨ds, s1, hds, hall, hk⟩ := ih (heq.trans (by simpa using h))
        refine ⟨c :: ds, s1, by simp [hds], ?_, hk⟩
        intro x hx
        rcases List.mem_cons.mp hx with rfl | hx
        · exact hm
        · exact hall x hx
      | none =>
        rw [heq] at h
        exact ⟨[], c :: rest, rfl, by simp, h⟩
    · rw [reStarG, if_neg hm] at h
      exact ⟨[], c :: rest, rfl, by simp, h⟩

theorem reStarL_elim {cc : CC} :
    ∀ {s : List Char} {caps : Caps} {k : List Char → Caps → Option Caps} {res : Caps},
      reStarL cc s caps k = some res →
      ∃ ds s1, s = ds ++ s1 ∧ (∀ c ∈ ds, cc.matches c = true) ∧ k s1 caps = some res := by
  intro s
  induction s with
  | nil =>
    intro caps k res h
    exact ⟨[], [], rfl, by simp, h⟩
  | cons c rest ih =>
    intro caps k res h
    rw [reStarL] at h
    cases heq : k (c :: rest) caps with
    | some r =>
      rw [heq] at h
      exact ⟨[], c :: rest, rfl, by simp, heq.trans (by simpa using h)⟩
    | none =>
      rw [heq] at h
      by_cases hm : cc.matches c
      · rw [if_pos hm] at h
        obtain ⟨ds, s1, hds, hall, hk⟩ := ih h
        refine ⟨c :: ds, s1, by simp [hds], ?_, hk⟩
        intro x hx
        rcases List.mem_cons.mp hx with rfl | hx
        · exact hm
        · exact hall x hx
      · rw [if_neg hm] at h
        cases h

theorem plusG_elim {cc : CC} {s : List Char} {caps : Caps}
    {k : List Char → Caps → Option Caps} {res : Caps}
    (h : matchRE (.plusG cc) s caps k = some res) :
    ∃ ds s1, s = ds ++ s1 ∧ ds ≠ [] ∧ (∀ c ∈ ds, cc.matches c = true) ∧
      k s1 caps = some res := by
  cases s with
  | nil => simp [matchRE] at h
  | cons c rest =>
    rw [matchRE] at h
    by_cases hm : cc.matches c
    · rw [if_pos hm] at h
      obtain ⟨ds, s1, hds, hall, hk⟩ := reStarG_elim h
      refine ⟨c :: ds, s1, by simp [hds], by simp, ?_, hk⟩
      intro x hx
      rcases List.mem_cons.mp hx with rfl | hx
      · exact hm
      · exact hall x hx
    · rw [if_neg hm] at h
      cases h

theorem plusL_elim {cc : CC} {s : List Char} {caps : Caps}
    {k : List Char → Caps → Option Caps} {res : Caps}
    (h : matchRE (.plusL cc) s caps k = some res) :
    ∃ s1, k s1 caps = some res := by
  cases s with
  | nil => simp [matchRE] at h
  | cons c rest =>
    rw [matchRE] at h
    by_cases hm : cc.matches c
    · rw [if_pos hm] at h
      obtain ⟨_, s1, _, _, hk⟩ := reStarL_elim h
      exact ⟨s1, hk⟩
    · rw [if_neg hm] at h
      cases h

/-- Master lemma on the backtracking matcher: the continuation of a
successful match is invoked on captures that extend the incoming ones,
keep every group-1 capture a nonempty digit string, and contain a
group-1 entry whenever the regex binds group 1 on every path. -/
theorem matchRE_master (r : RE) :
    ∀ (s : List Char) (caps : Caps) (k : List Char → Caps → Option Caps) (res : Caps)
      (Q : Prop),
      grp1ok r = true →
      matchRE r s caps k = some res →
      (∀ s1 caps1, (∃ pre, caps1 = pre ++ caps) →
        (goodCaps caps → goodCaps caps1) →
        (hasGrp1 r = true → entry1 caps1) →
        k s1 caps1 = some res → Q) → Q := by
  induction r with
  | eps =>
    intro s caps k res Q _ h hk
    exact hk s caps ⟨[], rfl⟩ id (by simp [hasGrp1]) h
  | cls cc =>
    intro s caps k res Q _ h hk
    cases s with
    | nil => simp [matchRE] at h
    | cons c rest =>
      rw [matchRE] at h
      by_cases hm : cc.matches c
      · rw [if_pos hm] at h
        exact hk rest caps ⟨[], rfl⟩ id (by simp [hasGrp1]) h
      · rw [if_neg hm] at h
        cases h
  | plusG cc =>
    intro s caps k res Q _ h hk
    obtain ⟨_, s1, _, _, _, hk1⟩ := plusG_elim h
    exact hk s1 caps ⟨[], rfl⟩ id (by simp [hasGrp1]) hk1
  | plusL cc =>
    intro s caps k res Q _ h hk
    obtain ⟨s1, hk1⟩ := plusL_elim h
    exact hk s1 caps ⟨[], rfl⟩ id (by simp [hasGrp1]) hk1
  | seq a b iha ihb =>
    intro s caps k res Q hok h hk
    rw [grp1ok, Bool.and_eq_true] at hok
    rw [matchRE] at h
    refine iha s caps _ res Q hok.1 h ?_
    intro s1 caps1 hext1 hgood1 hg1 hin
    refine ihb s1 caps1 k res Q hok.2 hin ?_
    intro s2 caps2 hext2 hgood2 hg2 hk2
    obtain ⟨pre1, rfl⟩ := hext1
    obtain ⟨pre2, rfl⟩ := hext2
    refine hk s2 (pre2 ++ (pre1 ++ caps)) ⟨pre2 ++ pre1, by simp⟩
      (fun hg => hgood2 (hgood1 hg)) ?_ hk2
    intro hseq
    rw [hasGrp1, Bool.or_eq_true] at hseq
    rcases hseq with ha | hb
    · exact entry1_append pre2 (hg1 ha)
    · exact hg2 hb
  | optG a iha =>
    intro s caps k res Q hok h hk
    rw [grp1ok] at hok
    rw [matchRE] at h
    cases heq : matchRE a s caps k with
    | some r0 =>
      rw [heq] at h
      refine iha s caps k res Q hok (heq.trans (by simpa using h)) ?_
      intro s1 caps1 hext hgood _ hk1
      exact hk s1 caps1 hext hgood (by simp [hasGrp1]) hk1
    | none =>
      rw [heq] at h
      exact hk s caps ⟨[], rfl⟩ id (by simp [hasGrp1]) h
  | grp n a iha =>
    intro s caps k res Q hok h hk
    rw [grp1ok] at hok
    rw [matchRE] at h
    by_cases hn : n = 1
    · subst hn
      rw [if_pos rfl] at hok
      have ha : a = RE.plusG CC.digit := of_decide_eq_true hok
      subst ha
      obtain ⟨ds, s1, hds, hne, hdig, hk1⟩ := plusG_elim h
      have htake : s.take (s.length - s1.length) = ds := by
        subst hds
        have hlen : (ds ++ s1).length - s1.length = ds.length := by
          simp
        rw [hlen, List.take_left]
      rw [htake] at hk1
      refine hk s1 ((1, ds) :: caps) ⟨[(1, ds)], rfl⟩ ?_ ?_ hk1
      · intro hg p hp h1
        rcases List.mem_cons.mp hp with rfl | hp
        · exact ⟨hne, hdig⟩
        · exact hg p hp h1
      · intro _
        exact ⟨(1, ds), List.mem_cons_self _ _, rfl⟩
    · rw [if_neg hn] at hok
      refine iha s caps _ res Q hok h ?_
      intro s1 caps1 hext hgood hg1 hk1
      obtain ⟨pre, rfl⟩ := hext
      refine hk s1 ((n, s.take (s.length - s1.length)) :: (pre ++ caps))
        ⟨(n, s.take (s.length - s1.length)) :: pre, by simp⟩ ?_ ?_ hk1
      · intro hg p hp h1
        rcases List.mem_cons.mp hp with rfl | hp
        · exact absurd h1 hn
        · exact hgood hg p hp h1
      · intro hgg
        rw [hasGrp1, Bool.or_eq_true] at hgg
        rcases hgg with h1 | ha
        · exact absurd (of_decide_eq_true h1) hn
        · obtain ⟨p, hp, hp1⟩ := hg1 ha
          exact ⟨p, List.mem_cons_of_mem _ hp, hp1⟩

theorem reFirstMatch_caps {r : RE} (hok : grp1ok r = true) (hg : hasGrp1 r = true) :
    ∀ {s caps}, reFirstMatch r s = some caps → entry1 caps ∧ goodCaps caps := by
  intro s
  induction s with
  | nil =>
    intro caps h
    rw [reFirstMatch] at h
    refine matchRE_master r [] [] _ caps (entry1 caps ∧ goodCaps caps) hok h ?_
    intro s1 caps1 _ hgood hg1 hk1
    have hcaps : caps1 = caps := by simpa using hk1
    subst hcaps
    exact ⟨hg1 hg, hgood (by intro p hp; cases hp)⟩
  | cons c rest ih =>
    intro caps h
    rw [reFirstMatch] at h
    cases heq : matchRE r (c :: rest) [] (fun _ caps => some caps) with
    | some caps0 =>
      rw [heq] at h
      have hc : caps0 = caps := by simpa using h
      subst hc
      refine matchRE_master r (c :: rest) [] _ caps0 (entry1 caps0 ∧ goodCaps caps0) hok heq ?_
      intro s1 caps1 _ hgood hg1 hk1
      have hcaps : caps1 = caps0 := by simpa using hk1
      subst hcaps
      exact ⟨hg1 hg, hgood (by intro p hp; cases hp)⟩
    | none =>
      rw [heq] at h
      exact ih h

theorem tryPatterns_mem :
    ∀ (ps : List RE) {s caps}, tryPatterns ps s = some caps →
      ∃ p ∈ ps, reFirstMatch p s = some caps := by
  intro ps
  induction ps with
  | nil => intro s caps h; cases h
  | cons p ps ih =>
    intro s caps h
    rw [tryPatterns] at h
    cases heq : reFirstMatch p s with
    | some caps0 =>
      rw [heq] at h
      exact ⟨p, List.mem_cons_self _ _, heq.trans (by simpa using h)⟩
    | none =>
      rw [heq] at h
      obtain ⟨q, hq, hfm⟩ := ih h
      exact ⟨q, List.mem_cons_of_mem _ hq, hfm⟩

theorem patterns_grp1 : ∀ p ∈ patterns, grp1ok p = true ∧ hasGrp1 p = true := by decide

theorem capGet_digits {caps : Caps} (h1 : entry1 caps) (hg : goodCaps caps) :
    capGet caps 1 ≠ [] ∧ ∀ c ∈ capGet caps 1, c.isDigit = true := by
  obtain ⟨p, hp, hp1⟩ := h1
  have hsome : (caps.find? (fun q => q.1 == 1)).isSome := by
    rw [List.find?_isSome]
    exact ⟨p, hp, by simpa using hp1⟩
  obtain ⟨q, hq⟩ := Option.isSome_iff_exists.mp hsome
  have hq1 : q.1 = 1 := by simpa using List.find?_some hq
  have hqmem : q ∈ caps := List.mem_of_find?_eq_some hq
  have := hg q hqmem hq1
  simpa [capGet, hq] using this

/-- Every successfully parsed command carries a quantity that is the
base-10 value of group 1 of the match the pattern loop actually
produced, and that capture is a nonempty digit string. -/
theorem processVoiceCommand_digits {cmd : List Char} {q : Nat} {nm : List Char} {b : Bool}
    (h : processVoiceCommand cmd = .intent q nm b) :
    ∃ m, tryPatterns patterns (jsToLower cmd) = some m ∧
      capGet m 1 ≠ [] ∧ (∀ c ∈ capGet m 1, c.isDigit = true) ∧
      q = parseIntDigits (capGet m 1) := by
  rw [processVoiceCommand, parseLowerCommand] at h
  cases heq : tryPatterns patterns (jsToLower cmd) with
  | none => rw [heq] at h; cases h
  | some m =>
    rw [heq] at h
    obtain ⟨p, hpmem, hfm⟩ := tryPatterns_mem patterns heq
    obtain ⟨hok, hgr⟩ := patterns_grp1 p hpmem
    obtain ⟨he1, hgood⟩ := reFirstMatch_caps hok hgr hfm
    obtain ⟨hne, hdig⟩ := capGet_digits he1 hgood
    injection h with h1 _ _
    exact ⟨m, rfl, hne, hdig, h1.symm⟩

/-- Claim C2 (amended): item resolution is bidirectional substring
containment of the fragment against the lowercased item name; the item
"Lidocaine" matches the fragments "lidocaine" and "vials of lidocaine",
and it also matches the fragment "lido", because the lowercased name
"lidocaine" contains "lido". -/
theorem C2_item_resolution :
    (∀ (frag : List Char) (item : Item),
      itemMatches frag item = true ↔
        (SubstrOf frag (jsToLower item.name) ∨ SubstrOf (jsToLower item.name) frag)) ∧
    itemMatches (str "lidocaine") lidocaineItem = true ∧
    itemMatches (str "vials of lidocaine") lidocaineItem = true ∧
    itemMatches (str "lido") lidocaineItem = true := by
  refine ⟨?_, by decide, by decide, by decide⟩
  intro frag item
  rw [itemMatches, Bool.or_eq_true, strIncludes_iff, strIncludes_iff]

/-- Claim C2 counterexample: contrary to the claim, the fragment "lido"
is not rejected against the item "Lidocaine" — the lowercased name does
contain it, so the reconciler resolves it. -/
theorem C2_lido_counterexample :
    itemMatches (str "lido") lidocaineItem = true ∧
    strIncludes (jsToLower lidocaineItem.name) (str "lido") = true := by decide

/-- Claim C3: for every transcript the interpreter matches, the parsed
direction is Add exactly when the literal substring "add" occurs in the
lowercased transcript, whatever pattern matched. -/
theorem C3_direction_from_add {cmd : List Char} {q : Nat} {nm : List Char} {b : Bool}
    (h : processVoiceCommand cmd = .intent q nm b) :
    b = true ↔ SubstrOf (str "add") (jsToLower cmd) := by
  rw [processVoiceCommand, parseLowerCommand] at h
  cases heq : tryPatterns patterns (jsToLower cmd) with
  | none => rw [heq] at h; cases h
  | some m =>
    rw [heq] at h
    injection h with _ _ h3
    rw [← h3]
    exact strIncludes_iff _ _

/-- Claim C3 witness: "used 3 adductor pads" matches the Consume
pattern yet classifies as Add, since "adductor" contains "add". -/
theorem C3_direction_witness :
    processVoiceCommand (str "used 3 adductor pads") = .intent 3 (str "adductor pads") true ∧
    (true = true ↔ SubstrOf (str "add") (jsToLower (str "used 3 adductor pads"))) :=
  ⟨by decide, @C3_direction_from_add (str "used 3 adductor pads") 3
    (str "adductor pads") true (by decide)⟩

/-- Claim C4, evaluated on the code: against the ledger
`[{name: "Gloves", quantity: 50}]` the command "Add 10 gloves to
inventory" parses with fragment "g" — not "gloves" as the claim states,
because the lazy `(.+?)` followed by the optional suffix group captures
a single character — while the reconciled quantity is still 60, since
"gloves" contains "g". -/
theorem C4_lazy_fragment :
    processVoiceCommand (str "Add 10 gloves to inventory") = .intent 10 (str "g") true ∧
    (handleCommand [glovesItem] (str "Add 10 gloves to inventory") 7).resInventory.map
      Item.quantity = [60] := by
  exact ⟨by decide, by decide⟩

/-- Claim C8 counterexample: the transcript "used 0 syringes" is
matched by the interpreter with quantityDelta 0, which is not strictly
positive. -/
theorem C8_zero_delta :
    processVoiceCommand (str "used 0 syringes") = .intent 0 (str "syringes") false := by decide

/-- Claim C8 (amended): for every matched transcript the extracted
quantityDelta is the base-10 value of the group-1 capture of the match
the pattern loop actually produced — a nonempty all-digit string, so
the delta is non-negative but possibly zero — and spelled-out numbers
such as "five" are never matched. -/
theorem C8_delta_digits {cmd : List Char} {q : Nat} {nm : List Char} {b : Bool}
    (h : processVoiceCommand cmd = .intent q nm b) :
    (∃ m, tryPatterns patterns (jsToLower cmd) = some m ∧
      capGet m 1 ≠ [] ∧ (∀ c ∈ capGet m 1, c.isDigit = true) ∧
      q = parseIntDigits (capGet m 1)) ∧
    processVoiceCommand (str "i used five syringes") = .unmatched :=
  ⟨processVoiceCommand_digits h, by decide⟩

/-- Claim C8 witness: instantiation at the matched transcript
"remove 12 pads". -/
theorem C8_delta_witness :
    processVoiceCommand (str "remove 12 pads") = .intent 12 (str "pads") false ∧
    ((∃ m, tryPatterns patterns (jsToLower (str "remove 12 pads")) = some m ∧
        capGet m 1 ≠ [] ∧ (∀ c ∈ capGet m 1, c.isDigit = true) ∧
        12 = parseIntDigits (capGet m 1)) ∧
      processVoiceCommand (str "i used five syringes") = .unmatched) :=
  ⟨by decide, @C8_delta_digits (str "remove 12 pads") 12 (str "pads") false (by decide)⟩

/-- Claim C1: when a fragment resolves to an item of quantity Q in a
ledger with distinct ids, reconciling a delta N with direction Consume
sets that item's quantity to `max 0 (Q - N)` — never negative — and
with direction Add to exactly `Q + N`, with no upper clamp. -/
theorem C1_quantity_formula (inventory : List Item) (frag : List Char) (n : Nat) (now : Nat)
    (item : Item)
    (hfind : inventory.find? (fun inv => itemMatches frag inv) = some item)
    (hnodup : (inventory.map Item.id).Nodup) :
    ∃ invC stC invA stA,
      updateInventory inventory frag n false now = .success invC stC item.id ∧
      updateInventory inventory frag n true now = .success invA stA item.id ∧
      (∀ inv ∈ invC, inv.id = item.id →
        inv.quantity = max 0 (item.quantity - (n : Int)) ∧ 0 ≤ inv.quantity) ∧
      (∀ inv ∈ invA, inv.id = item.id → inv.quantity = item.quantity + (n : Int)) := by
  have hmem : item ∈ inventory := List.mem_of_find?_eq_some hfind
  rw [updateInventory, hfind, updateInventory, hfind]
  refine ⟨_, _, _, _, rfl, rfl, ?_, ?_⟩
  · intro inv hm hid
    obtain ⟨inv0, h0, rfl⟩ := List.mem_map.mp hm
    by_cases h00 : inv0.id = item.id
    · have heq : inv0 = item := List.inj_on_of_nodup_map hnodup h0 hmem h00
      subst heq
      refine ⟨by simp [h00], ?_⟩
      simp [h00]
    · rw [if_neg h00] at hid
      exact absurd hid h00
  · intro inv hm hid
    obtain ⟨inv0, h0, rfl⟩ := List.mem_map.mp hm
    by_cases h00 : inv0.id = item.id
    · have heq : inv0 = item := List.inj_on_of_nodup_map hnodup h0 hmem h00
      subst heq
      simp [h00]
    · rw [if_neg h00] at hid
      exact absurd hid h00

/-- Claim C1 witness: instantiation at the seeded ledger, fragment
"syringes" and delta 5. -/
theorem C1_quantity_witness :
    initialInventory.find? (fun inv => itemMatches (str "syringes") inv) = some syringesItem ∧
    (initialInventory.map Item.id).Nodup ∧
    ∃ invC stC invA stA,
      updateInventory initialInventory (str "syringes") 5 false 7 =
        .success invC stC syringesItem.id ∧
      updateInventory initialInventory (str "syringes") 5 true 7 =
        .success invA stA syringesItem.id ∧
      (∀ inv ∈ invC, inv.id = syringesItem.id →
        inv.quantity = max 0 (syringesItem.quantity - (5 : Int)) ∧ 0 ≤ inv.quantity) ∧
      (∀ inv ∈ invA, inv.id = syringesItem.id →
        inv.quantity = syringesItem.quantity + (5 : Int)) :=
  ⟨by decide, by decide,
    C1_quantity_formula initialInventory (str "syringes") 5 7 syringesItem (by decide) (by decide)⟩

/-- Claim C5: in the Supabase variant, when the store rejects the
quantity update for a resolved item, the in-memory ledger is returned
unchanged and a distinct failure status naming that item is produced;
when the write succeeds, the mutation is applied. -/
theorem C5_store_failure (inventory : List Item) (frag : List Char) (n : Nat) (b : Bool)
    (now : Nat) (item : Item)
    (hfind : inventory.find? (fun inv => itemMatches frag inv) = some item) :
    (∃ st, updateInventorySB inventory frag n b now false = .storeFailure inventory st ∧
      SubstrOf item.name st) ∧
    ∃ inv2 st2, updateInventorySB inventory frag n b now true = .success inv2 st2 item.id := by
  constructor
  · refine ⟨str "❌ Failed to update " ++ item.name ++ str ". Please try again.", ?_, ?_⟩
    · rw [updateInventorySB, hfind]
      rfl
    · exact ⟨str "❌ Failed to update ", str ". Please try again.", rfl⟩
  · rw [updateInventorySB, hfind]
    exact ⟨_, _, by rfl⟩

/-- Claim C5 witness: instantiation at the seeded ledger and fragment
"gauze". -/
theorem C5_store_witness :
    initialInventory.find? (fun inv => itemMatches (str "gauze") inv) = some gauzeItem ∧
    ((∃ st, updateInventorySB initialInventory (str "gauze") 4 false 7 false =
        .storeFailure initialInventory st ∧ SubstrOf gauzeItem.name st) ∧
      ∃ inv2 st2, updateInventorySB initialInventory (str "gauze") 4 false 7 true =
        .success inv2 st2 gauzeItem.id) :=
  ⟨by decide,
    C5_store_failure initialInventory (str "gauze") 4 false 7 gauzeItem (by decide)⟩

/-- Claim C6: a transcript matched by none of the four patterns yields
the distinct unrecognized-command outcome, and the ledger is returned
untouched. -/
theorem C6_unrecognized (inventory : List Item) (cmd : List Char) (now : Nat)
    (h : ∀ p ∈ patterns, reFirstMatch p (jsToLower cmd) = none) :
    ∃ st, handleCommand inventory cmd now = .unrecognized inventory st := by
  have h1 := h p1 (by simp [patterns])
  have h2 := h p2 (by simp [patterns])
  have h3 := h p3 (by simp [patterns])
  have h4 := h p4 (by simp [patterns])
  have htry : tryPatterns patterns (jsToLower cmd) = none := by
    simp [tryPatterns, patterns, h1, h2, h3, h4]
  rw [handleCommand, processVoiceCommand, parseLowerCommand, htry]
  exact ⟨_, rfl⟩

/-- Claim C6 witness: "xyz please help" matches no pattern and leaves
the seeded ledger unchanged. -/
theorem C6_unrecognized_witness :
    ∃ st, handleCommand initialInventory (str "xyz please help") 7 =
      .unrecognized initialInventory st :=
  C6_unrecognized initialInventory (str "xyz please help") 7 (by decide)

/-- Claim C7: when a command parses but no ledger item resolves the
fragment, the outcome is the distinct not-found report, the ledger is
returned untouched, and the status string contains the attempted
fragment and the name of every known item. -/
theorem C7_not_found (inventory : List Item) (cmd : List Char) (now : Nat) (q : Nat)
    (nm : List Char) (b : Bool)
    (hparse : processVoiceCommand cmd = .intent q nm b)
    (hnone : inventory.find? (fun inv => itemMatches nm inv) = none) :
    ∃ st, handleCommand inventory cmd now = .notFound inventory st ∧
      SubstrOf nm st ∧ ∀ item ∈ inventory, SubstrOf item.name st := by
  simp only [handleCommand, hparse]
  rw [updateInventory, hnone]
  refine ⟨_, rfl, ?_, ?_⟩
  · refine ⟨str "❌ Item \"",
      str "\" not found. Available items: " ++
        joinSep (str ", ") (inventory.map (fun i => i.name)), ?_⟩
    simp
  · intro item hmem
    obtain ⟨pre, post, hp⟩ :=
      joinSep_mem (str ", ") (List.mem_map_of_mem (fun i => i.name) hmem)
    refine ⟨str "❌ Item \"" ++ nm ++ str "\" not found. Available items: " ++ pre, post, ?_⟩
    simp [hp]

/-- Claim C7 witness: "remove 3 bandaids" against a ledger holding only
"Bandages" — no containment either way — is reported not-found with the
ledger unchanged. -/
theorem C7_not_found_witness :
    processVoiceCommand (str "remove 3 bandaids") = .intent 3 (str "bandaids") false ∧
    ∃ st, handleCommand [bandagesItem] (str "remove 3 bandaids") 7 =
      .notFound [bandagesItem] st ∧
      SubstrOf (str "bandaids") st ∧ ∀ item ∈ [bandagesItem], SubstrOf item.name st :=
  ⟨by decide,
    C7_not_found [bandagesItem] (str "remove 3 bandaids") 7 3 (str "bandaids") false
      (by decide) (by decide)⟩

/-- Claim C9: a successful reconciliation against a ledger with
distinct ids changes exactly one ledger entry (the resolved id occurs
exactly once); positionally, every entry keeps its id, name, unit and
low-stock threshold, entries with other ids are untouched entirely, and
the resolved entry gets quantity per the direction formula and its
lastUpdated refreshed to the current clock. -/
theorem C9_single_item_frame (inventory : List Item) (frag : List Char) (n : Nat) (b : Bool)
    (now : Nat) (item : Item)
    (hfind : inventory.find? (fun inv => itemMatches frag inv) = some item)
    (hnodup : (inventory.map Item.id).Nodup) :
    ∃ inv2 st,
      updateInventory inventory frag n b now = .success inv2 st item.id ∧
      inv2.length = inventory.length ∧
      (inventory.map Item.id).count item.id = 1 ∧
      ∀ p ∈ inventory.zip inv2,
        p.2.id = p.1.id ∧ p.2.name = p.1.name ∧ p.2.unit = p.1.unit ∧
        p.2.lowStock = p.1.lowStock ∧
        (p.1.id = item.id → p.2.lastUpdated = now ∧
          p.2.quantity =
            (if b then p.1.quantity + (n : Int) else max 0 (p.1.quantity - (n : Int)))) ∧
        (p.1.id ≠ item.id → p.2 = p.1) := by
  have hmem : item ∈ inventory := List.mem_of_find?_eq_some hfind
  rw [updateInventory, hfind]
  refine ⟨_, _, rfl, by simp, ?_, ?_⟩
  · have hle : (inventory.map Item.id).count item.id ≤ 1 :=
      List.nodup_iff_count_le_one.mp hnodup item.id
    have hpos : 0 < (inventory.map Item.id).count item.id :=
      List.count_pos_iff.mpr (List.mem_map_of_mem Item.id hmem)
    omega
  · have hz : inventory.zip (inventory.map (fun inv =>
        if inv.id = item.id then
          { inv with
            quantity := if b then inv.quantity + (n : Int)
                        else max 0 (inv.quantity - (n : Int)),
            lastUpdated := now }
        else inv)) =
        inventory.map (fun a => (a, if a.id = item.id then
          { a with
            quantity := if b then a.quantity + (n : Int)
                        else max 0 (a.quantity - (n : Int)),
            lastUpdated := now }
        else a)) := by
      have := List.zip_map' id (fun inv =>
        if inv.id = item.id then
          { inv with
            quantity := if b then inv.quantity + (n : Int)
                        else max 0 (inv.quantity - (n : Int)),
            lastUpdated := now }
        else inv) inventory
      simpa using this
    rw [hz]
    intro p hp
    obtain ⟨a, _, rfl⟩ := List.mem_map.mp hp
    by_cases ha : a.id = item.id
    · simp [ha]
    · simp [ha]

/-- Claim C9 witness: instantiation at the seeded ledger, fragment
"gloves" and delta 9. -/
theorem C9_single_item_witness :
    initialInventory.find? (fun inv => itemMatches (str "gloves") inv) = some glovesItem ∧
    (initialInventory.map Item.id).Nodup ∧
    ∃ inv2 st,
      updateInventory initialInventory (str "gloves") 9 true 7 = .success inv2 st glovesItem.id ∧
      inv2.length = initialInventory.length ∧
      (initialInventory.map Item.id).count glovesItem.id = 1 ∧
      ∀ p ∈ initialInventory.zip inv2,
        p.2.id = p.1.id ∧ p.2.name = p.1.name ∧ p.2.unit = p.1.unit ∧
        p.2.lowStock = p.1.lowStock ∧
        (p.1.id = glovesItem.id → p.2.lastUpdated = 7 ∧
          p.2.quantity =
            (if true then p.1.quantity + (9 : Int) else max 0 (p.1.quantity - (9 : Int)))) ∧
        (p.1.id ≠ glovesItem.id → p.2 = p.1) :=
  ⟨by decide, by decide,
    C9_single_item_frame initialInventory (str "gloves") 9 true 7 glovesItem
      (by decide) (by decide)⟩

/-- Claim C10: the reconciler never lowercases the fragment — the
all-else-equal fragment "Gloves" fails to resolve the item "Gloves",
whose lowercased name "gloves" neither contains nor is contained in it —
and the interpreter's output depends on the transcript only through its
lowercasing, which is what makes the end-to-end pipeline
case-insensitive. -/
theorem C10_fragment_case (now : Nat) :
    (∃ st, updateInventory [glovesItem] (str "Gloves") 10 true now =
      .notFound [glovesItem] st) ∧
    ∀ c1 c2 : List Char, jsToLower c1 = jsToLower c2 →
      processVoiceCommand c1 = processVoiceCommand c2 := by
  constructor
  · have hfind : [glovesItem].find? (fun inv => itemMatches (str "Gloves") inv) = none := by
      decide
    rw [updateInventory, hfind]
    exact ⟨_, rfl⟩
  · intro c1 c2 h
    rw [processVoiceCommand, processVoiceCommand, h]

/-- Claim C10 witness: an uppercase and a lowercase spelling of the
same command parse identically. -/
theorem C10_fragment_witness :
    processVoiceCommand (str "ADD 2 gloves") = processVoiceCommand (str "add 2 gloves") :=
  (C10_fragment_case 0).2 (str "ADD 2 gloves") (str "add 2 gloves") (by decide)
